import Mathlib

/-!
Shallow embedding of the Gemini AI response cache of the HAZOP application:
`backend/app/services/gemini_cache.py` (service `GeminiCacheService`),
`backend/app/models/gemini_cache.py` (ORM model `GeminiCache`), and the
`/cache-stats` endpoint of `backend/app/api/gemini.py`.

Modelling conventions:
* `datetime.utcnow()` instants are natural numbers (seconds); `timedelta(days=7)`
  is the constant `cache_ttl = 7 * 86400`.  Within one service call the code may
  call `utcnow()` more than once; the calls happen in the same handler a few
  microseconds apart, so one `now` parameter per operation stands for all of them.
* The database table `gemini_cache` is a `List GeminiCache` (insertion order);
  `query(...).filter(...).first()` is `List.find?`, an in-place UPDATE of the row
  found by `first()` is `updateFirst`, `query(...).filter(...).delete()` is a
  `List.filter` plus the count of dropped rows.
* The context blob is a flat JSON object, a `List (String × String)` in insertion
  order.  `json.dumps(obj, sort_keys=True)` followed by a digest (`sha256` for the
  cache key, `md5` for `context_hash`) is modelled by the canonical sorted form
  itself: the digest is a pure function of the canonical serialization, so equal
  canonical forms give equal digests, which is all the theorems below use.
* `json.dumps(response)` / `json.loads(cached.response_data)` round-trip the
  payload, so the payload is stored opaquely as a `String`.
-/

/-- Context blob of a suggestion request: a flat JSON object given as key/value
pairs in insertion order.  (`context or {}` in the Python code maps a missing
context to the empty object; on dict inputs it is the identity, so the model
takes the dict directly.) -/
abbrev Context := List (String × String)

/-- Canonical form of a context map: its pairs sorted by key, modelling
`json.dumps(..., sort_keys=True)` on a flat object. -/
def sortPairs (context : Context) : Context :=
  List.insertionSort (fun a b => a.1 ≤ b.1) context

/-- Cache key type.  `_generate_cache_key` hashes the canonical JSON of
`⟨deviation_id, context, type⟩` with SHA-256; the digest is modelled by the
canonical form itself (equal canonical forms give equal digests). -/
abbrev CacheKey := String × Context × String

/-- Embedding of `GeminiCacheService._generate_cache_key`: build the dict
`deviation_id / context / type` and serialize it with sorted keys. -/
def generate_cache_key (deviation_id : String) (context : Context)
    (suggestion_type : String) : CacheKey :=
  (deviation_id, sortPairs context, suggestion_type)

/-- Embedding of `GeminiCacheService._hash_context` (md5 of the sorted-keys
JSON of the context, modelled by the canonical form). -/
def hash_context (context : Context) : Context :=
  sortPairs context

/-- Embedding of the ORM model `GeminiCache` (table `gemini_cache`).  The
surrogate `id` column (a random UUID) plays no role in any queried behaviour
and is omitted. -/
structure GeminiCache where
  cache_key : CacheKey
  deviation_id : String
  suggestion_type : String
  context_hash : Context
  response_data : String
  created_at : Nat
  expires_at : Nat
  access_count : Nat
  last_accessed : Nat
deriving DecidableEq

/-- Database state: the rows of `gemini_cache` in insertion order. -/
abbrev CacheState := List GeminiCache

/-- Embedding of `self.cache_ttl = timedelta(days=7)`, in seconds. -/
def cache_ttl : Nat := 7 * 86400

/-- Embedding of `self.enabled = True` set in `GeminiCacheService.__init__`
(nothing in the repository ever clears it). -/
def cache_enabled : Bool := true

/-- Row predicate of the lookup `filter(GeminiCache.cache_key == cache_key)`. -/
def keyMatch (k : CacheKey) (e : GeminiCache) : Bool :=
  decide (e.cache_key = k)

/-- Row predicate of the hit query
`filter(GeminiCache.cache_key == cache_key, GeminiCache.expires_at > utcnow())`. -/
def hitMatch (now : Nat) (k : CacheKey) (e : GeminiCache) : Bool :=
  decide (e.cache_key = k ∧ now < e.expires_at)

/-- In-place UPDATE of the row returned by `.first()`: rewrite the first row
satisfying `p` with `f`, leave every other row unchanged. -/
def updateFirst (p : GeminiCache → Bool) (f : GeminiCache → GeminiCache) :
    CacheState → CacheState
  | [] => []
  | e :: es => if p e then f e :: es else e :: updateFirst p f es

/-- Row update of the hit path, `GeminiCache.update_access_stats`:
`access_count += 1; last_accessed = utcnow()`. -/
def touchRow (now : Nat) (c : GeminiCache) : GeminiCache :=
  { c with access_count := c.access_count + 1, last_accessed := now }

/-- Row update of the overwrite branch of `cache_response`: new payload, fresh
`expires_at`, `access_count += 1`, fresh `last_accessed`; `created_at` is not
assigned. -/
def overwriteRow (now : Nat) (response : String) (c : GeminiCache) :
    GeminiCache :=
  { c with response_data := response, expires_at := now + cache_ttl,
           access_count := c.access_count + 1, last_accessed := now }

/-- Row inserted by the insert branch of `cache_response`. -/
def freshEntry (now : Nat) (k : CacheKey) (deviation_id suggestion_type : String)
    (ctxh : Context) (response : String) : GeminiCache :=
  { cache_key := k, deviation_id := deviation_id,
    suggestion_type := suggestion_type, context_hash := ctxh,
    response_data := response, created_at := now,
    expires_at := now + cache_ttl, access_count := 1, last_accessed := now }

/-- Key-level body of `GeminiCacheService.get_cached_response` (after the cache
key has been generated): find the first unexpired row with this key; on a hit,
run `GeminiCache.update_access_stats`, commit, and return the stored payload. -/
def getByKey (now : Nat) (k : CacheKey) (s : CacheState) :
    Option String × CacheState :=
  match s.find? (hitMatch now k) with
  | some e => (some e.response_data, updateFirst (hitMatch now k) (touchRow now) s)
  | none => (none, s)

/-- Key-level body of `GeminiCacheService.cache_response`: if a row with this
key exists, overwrite it in place; otherwise insert a fresh row with
`access_count = 1` and `expires_at = utcnow() + cache_ttl`. -/
def putByKey (now : Nat) (k : CacheKey) (deviation_id suggestion_type : String)
    (ctxh : Context) (response : String) (s : CacheState) : Bool × CacheState :=
  match s.find? (keyMatch k) with
  | some _ => (true, updateFirst (keyMatch k) (overwriteRow now response) s)
  | none =>
      (true, s ++ [freshEntry now k deviation_id suggestion_type ctxh response])

/-- Embedding of `GeminiCacheService.get_cached_response`. -/
def get_cached_response (now : Nat) (deviation_id : String) (context : Context)
    (suggestion_type : String) (s : CacheState) : Option String × CacheState :=
  if cache_enabled then
    getByKey now (generate_cache_key deviation_id context suggestion_type) s
  else (none, s)

/-- Embedding of `GeminiCacheService.cache_response`. -/
def cache_response (now : Nat) (deviation_id : String) (context : Context)
    (suggestion_type : String) (response : String) (s : CacheState) :
    Bool × CacheState :=
  if cache_enabled then
    putByKey now (generate_cache_key deviation_id context suggestion_type)
      deviation_id suggestion_type (hash_context context) response s
  else (false, s)

/-- Embedding of `GeminiCacheService.cleanup_expired`: delete every row with
`expires_at < utcnow()` and return the number of rows deleted. -/
def cleanup_expired (now : Nat) (s : CacheState) : Nat × CacheState :=
  ((s.filter (fun e => decide (e.expires_at < now))).length,
   s.filter (fun e => !(decide (e.expires_at < now))))

/-- Field `total_entries` of `GeminiCacheService.get_stats`: row count. -/
def total_entries (s : CacheState) : Nat := s.length

/-- Field `total_hits` of `GeminiCacheService.get_stats`: the sum of
`access_count` over all rows. -/
def total_hits (s : CacheState) : Nat :=
  (s.map (fun e => e.access_count)).sum

/-- Constant `estimated_cost_per_call = 0.0004` of the `/cache-stats` endpoint
(`get_cache_stats` in `backend/app/api/gemini.py`), as an exact rational. -/
def estimated_cost_per_call : ℚ := 4 / 10000

/-- Rounding to two decimal places.  Python's `round(x, 2)` on a float uses
round-half-to-even on the binary value; every quantity this development rounds
is a multiple of `0.0004` whose hundredfold is never half-way between two
integers, so exact half-up rounding of the rational value agrees with it. -/
def roundTo2 (q : ℚ) : ℚ :=
  (((q * 100 + 1 / 2).floor : ℤ) : ℚ) / 100

/-- The endpoint's `cache_hits` figure:
`total_hits - total_entries if total_hits > total_entries else 0`. -/
def cache_hits_figure (s : CacheState) : Nat :=
  if total_hits s > total_entries s then total_hits s - total_entries s else 0

/-- The endpoint's `estimated_cost_savings_usd` field:
`round(cache_hits * estimated_cost_per_call, 2)`. -/
def estimated_cost_savings_usd (s : CacheState) : ℚ :=
  roundTo2 ((cache_hits_figure s : ℚ) * estimated_cost_per_call)

/-- One cache operation of a history: a lookup, a store, or a cleanup sweep. -/
inductive Op where
  | get (now : Nat) (deviation_id : String) (context : Context)
      (suggestion_type : String)
  | put (now : Nat) (deviation_id : String) (context : Context)
      (suggestion_type : String) (response : String)
  | sweep (now : Nat)
deriving DecidableEq

/-- Whether an operation is a cleanup sweep. -/
def Op.isSweep : Op → Bool
  | .sweep _ => true
  | _ => false

/-- Run one operation on the state, also tracking a ghost counter of cache
hits: the number of `get` calls so far that returned a cached payload. -/
def runStep (st : CacheState × Nat) (op : Op) : CacheState × Nat :=
  match op with
  | .get now dev ctx ty =>
      ((get_cached_response now dev ctx ty st.1).2,
       st.2 + (if (get_cached_response now dev ctx ty st.1).1.isSome then 1 else 0))
  | .put now dev ctx ty v => ((cache_response now dev ctx ty v st.1).2, st.2)
  | .sweep now => ((cleanup_expired now st.1).2, st.2)

/-- Run a whole history of operations left to right. -/
def runTrace (ops : List Op) (st : CacheState × Nat) : CacheState × Nat :=
  ops.foldl runStep st

/-- Cache keys of the `put` operations of a history, in order. -/
def putKeys : List Op → List CacheKey
  | [] => []
  | .put _ dev ctx ty _ :: rest => generate_cache_key dev ctx ty :: putKeys rest
  | .get _ _ _ _ :: rest => putKeys rest
  | .sweep _ :: rest => putKeys rest

/-- Keys of the rows of a state, in row order. -/
def keys (s : CacheState) : List CacheKey :=
  s.map (fun e => e.cache_key)

/-- The schema invariant of the `cache_key` column (`unique=True`): no two rows
share a key. -/
abbrev keysNodup (s : CacheState) : Prop :=
  (keys s).Nodup

/-- The documented relation between the timestamp columns: every row satisfies
`expires_at = created_at + cache_ttl`. -/
abbrev ttlInvariant (s : CacheState) : Prop :=
  ∀ e ∈ s, e.expires_at = e.created_at + cache_ttl

/-- Failure injection for the `try`/`except` analysis: whether the database
query/delete raises, whether `commit` raises, and whether JSON
serialization (`json.dumps`/`json.loads`) raises. -/
structure FailureMode where
  queryFails : Bool
  commitFails : Bool
  serdeFails : Bool
deriving DecidableEq

/-- Caller-visible value of `get_cached_response` under failure injection,
mirroring the method's control flow: the `except Exception` handler turns any
raise inside the `try` block (query, or commit / `json.loads` on the hit path)
into a `None` return. -/
def get_cached_response_failing (f : FailureMode) (now : Nat)
    (deviation_id : String) (context : Context) (suggestion_type : String)
    (s : CacheState) : Option String :=
  if !cache_enabled then none
  else if f.queryFails then none
  else
    match s.find? (hitMatch now
        (generate_cache_key deviation_id context suggestion_type)) with
    | some e =>
        if f.commitFails then none
        else if f.serdeFails then none
        else some e.response_data
    | none => none

/-- Caller-visible value of `cache_response` under failure injection: the
handler turns any raise inside the `try` block (query, `json.dumps`, or
commit — all three run on both the update and the insert branch) into a
`False` return. -/
def cache_response_failing (f : FailureMode) (now : Nat)
    (deviation_id : String) (context : Context) (suggestion_type : String)
    (response : String) (s : CacheState) : Bool :=
  if !cache_enabled then false
  else if f.queryFails then false
  else if f.serdeFails then false
  else if f.commitFails then false
  else (cache_response now deviation_id context suggestion_type response s).1

/-- Caller-visible value of `cleanup_expired` under failure injection: the
handler turns a raise of the delete query or of `commit` into a `0` return
(no JSON serialization happens inside this method). -/
def cleanup_expired_failing (f : FailureMode) (now : Nat) (s : CacheState) :
    Nat :=
  if f.queryFails then 0
  else if f.commitFails then 0
  else (cleanup_expired now s).1

/-- Sample key used by concrete witnesses. -/
def sampleKey : CacheKey := ("d1", [("p", "x")], "causes")

/-- Sample live row (expires at 10) used by concrete witnesses. -/
def sampleLive : GeminiCache :=
  { cache_key := sampleKey, deviation_id := "d1", suggestion_type := "causes",
    context_hash := [("p", "x")], response_data := "v", created_at := 0,
    expires_at := 10, access_count := 1, last_accessed := 0 }

/-- Sample expired row (expires at 2) used by concrete witnesses. -/
def sampleExpired : GeminiCache :=
  { cache_key := ("d2", [], "causes"), deviation_id := "d2",
    suggestion_type := "causes", context_hash := [], response_data := "w",
    created_at := 0, expires_at := 2, access_count := 1, last_accessed := 0 }

/-- Sample row created by the insert branch at time 0, used by witnesses. -/
def sampleFresh : GeminiCache :=
  freshEntry 0 sampleKey "d1" "causes" [("p", "x")] "v"

/-- A row update touches nothing when no row matches. -/
theorem updateFirst_of_find?_eq_none (p : GeminiCache → Bool)
    (f : GeminiCache → GeminiCache) (s : CacheState) (h : s.find? p = none) :
    updateFirst p f s = s := by
  induction s with
  | nil => rfl
  | cons a rest ih =>
    cases hpa : p a with
    | true => rw [List.find?_cons_of_pos rest hpa] at h; exact absurd h (by simp)
    | false =>
      rw [List.find?_cons_of_neg rest (by simp [hpa])] at h
      simp [updateFirst, hpa, ih h]

/-- A row update that preserves the key column leaves the key list unchanged. -/
theorem keys_updateFirst (p : GeminiCache → Bool) (f : GeminiCache → GeminiCache)
    (s : CacheState) (h : ∀ e, (f e).cache_key = e.cache_key) :
    keys (updateFirst p f s) = keys s := by
  induction s with
  | nil => rfl
  | cons a rest ih =>
    cases hpa : p a with
    | true => simp [updateFirst, hpa, keys, h a]
    | false => simpa [updateFirst, hpa, keys] using ih

/-- A row update does not change the number of rows. -/
theorem length_updateFirst (p : GeminiCache → Bool)
    (f : GeminiCache → GeminiCache) (s : CacheState) :
    (updateFirst p f s).length = s.length := by
  induction s with
  | nil => rfl
  | cons a rest ih =>
    cases hpa : p a with
    | true => simp [updateFirst, hpa]
    | false => simp [updateFirst, hpa, ih]

/-- Every row of an updated state is an old row or the update of an old row. -/
theorem mem_updateFirst (p : GeminiCache → Bool) (f : GeminiCache → GeminiCache)
    (s : CacheState) (x : GeminiCache) (hx : x ∈ updateFirst p f s) :
    x ∈ s ∨ ∃ y, y ∈ s ∧ x = f y := by
  induction s with
  | nil => exact absurd hx (by simp [updateFirst])
  | cons a rest ih =>
    cases hpa : p a with
    | true =>
      rw [updateFirst, if_pos hpa] at hx
      rcases List.mem_cons.mp hx with h | h
      · exact Or.inr ⟨a, List.mem_cons_self a rest, h⟩
      · exact Or.inl (List.mem_cons_of_mem a h)
    | false =>
      rw [updateFirst, if_neg (by simp [hpa])] at hx
      rcases List.mem_cons.mp hx with h | h
      · exact Or.inl (h ▸ List.mem_cons_self a rest)
      · rcases ih h with h' | ⟨y, hy, hxy⟩
        · exact Or.inl (List.mem_cons_of_mem a h')
        · exact Or.inr ⟨y, List.mem_cons_of_mem a hy, hxy⟩

/-- The update of the row found by `.first()` is a row of the updated state. -/
theorem updateFirst_mem_of_find? (p : GeminiCache → Bool)
    (f : GeminiCache → GeminiCache) (s : CacheState) (e : GeminiCache)
    (h : s.find? p = some e) : f e ∈ updateFirst p f s := by
  induction s with
  | nil => exact absurd h (by simp)
  | cons a rest ih =>
    cases hpa : p a with
    | true =>
      rw [List.find?_cons_of_pos rest hpa] at h
      rw [updateFirst, if_pos hpa]
      exact (Option.some.injEq .. ▸ h : a = e) ▸ List.mem_cons_self (f a) rest
    | false =>
      rw [List.find?_cons_of_neg rest (by simp [hpa])] at h
      rw [updateFirst, if_neg (by simp [hpa])]
      exact List.mem_cons_of_mem a (ih h)

/-- When the update keeps the row predicate true, the first match of the
updated state is the update of the first match of the old state. -/
theorem find?_updateFirst (p : GeminiCache → Bool)
    (f : GeminiCache → GeminiCache) (s : CacheState)
    (h : ∀ e, p e = true → p (f e) = true) :
    (updateFirst p f s).find? p = (s.find? p).map f := by
  induction s with
  | nil => rfl
  | cons a rest ih =>
    cases hpa : p a with
    | true =>
      rw [updateFirst, if_pos hpa, List.find?_cons_of_pos rest hpa,
        List.find?_cons_of_pos _ (h a hpa)]
      rfl
    | false =>
      rw [updateFirst, if_neg (by simp [hpa]), List.find?_cons_of_neg rest (by simp [hpa]),
        List.find?_cons_of_neg _ (by simp [hpa]), ih]

/-- Incrementing the `access_count` of the row found by `.first()` raises the
total hit count by exactly one. -/
theorem total_hits_updateFirst (p : GeminiCache → Bool)
    (f : GeminiCache → GeminiCache) (s : CacheState) (e : GeminiCache)
    (hfind : s.find? p = some e)
    (hf : ∀ c, (f c).access_count = c.access_count + 1) :
    total_hits (updateFirst p f s) = total_hits s + 1 := by
  induction s with
  | nil => exact absurd hfind (by simp)
  | cons a rest ih =>
    cases hpa : p a with
    | true =>
      rw [updateFirst, if_pos hpa]
      simp only [total_hits, List.map_cons, List.sum_cons, hf a]
      omega
    | false =>
      rw [List.find?_cons_of_neg rest (by simp [hpa])] at hfind
      rw [updateFirst, if_neg (by simp [hpa])]
      simp only [total_hits, List.map_cons, List.sum_cons] at ih ⊢
      rw [ih hfind]
      omega

/-- The key-uniqueness invariant, phrased row-pairwise. -/
theorem keysNodup_iff_pairwise (s : CacheState) :
    keysNodup s ↔ s.Pairwise (fun a b => a.cache_key ≠ b.cache_key) := by
  unfold keysNodup keys List.Nodup
  exact List.pairwise_map

/-- Under key uniqueness, two rows with the same key are the same row. -/
theorem key_unique (s : CacheState) (e x : GeminiCache) (h : keysNodup s)
    (he : e ∈ s) (hx : x ∈ s) (hk : x.cache_key = e.cache_key) : x = e := by
  by_contra hne
  exact ((keysNodup_iff_pairwise s).mp h).forall
    (fun {a b} hab => fun hba => hab hba.symm) hx he hne hk

/-- No row carries the key, so the key query finds nothing. -/
theorem find?_keyMatch_eq_none (k : CacheKey) (s : CacheState)
    (h : ∀ e ∈ s, e.cache_key ≠ k) : s.find? (keyMatch k) = none :=
  List.find?_eq_none.mpr (fun x hx => by simp [keyMatch, h x hx])

/-- No row carries the key, so the hit query finds nothing. -/
theorem find?_hitMatch_eq_none (now : Nat) (k : CacheKey) (s : CacheState)
    (h : ∀ e ∈ s, e.cache_key ≠ k) : s.find? (hitMatch now k) = none :=
  List.find?_eq_none.mpr (fun x hx => by simp [hitMatch, h x hx])

/-- Under key uniqueness, a row with the key is the row the key query finds. -/
theorem find?_keyMatch_of_mem (k : CacheKey) (s : CacheState) (e : GeminiCache)
    (h : keysNodup s) (he : e ∈ s) (hk : e.cache_key = k) :
    s.find? (keyMatch k) = some e := by
  have hsome : (s.find? (keyMatch k)).isSome = true :=
    List.find?_isSome.mpr ⟨e, he, by simp [keyMatch, hk]⟩
  rcases Option.isSome_iff_exists.mp hsome with ⟨E, hE⟩
  have hEk : E.cache_key = k := by
    have := List.find?_some hE
    simpa [keyMatch] using this
  have : E = e :=
    key_unique s e E h he (List.mem_of_find?_eq_some hE) (hEk.trans hk.symm)
  rw [hE, this]

/-- A deletion splits the row count between dropped and kept rows. -/
theorem length_filter_split (p : GeminiCache → Bool) (s : CacheState) :
    (s.filter p).length + (s.filter (fun e => !(p e))).length = s.length := by
  induction s with
  | nil => rfl
  | cons a rest ih =>
    cases hpa : p a with
    | true => simp [List.filter_cons, hpa]; omega
    | false => simp [List.filter_cons, hpa]; omega

/-- A lookup preserves the key list of the state. -/
theorem keys_getByKey (now : Nat) (k : CacheKey) (s : CacheState) :
    keys (getByKey now k s).2 = keys s := by
  cases hf : s.find? (hitMatch now k) with
  | none => simp [getByKey, hf]
  | some e =>
    simp only [getByKey, hf]
    exact keys_updateFirst _ _ s (fun e => rfl)

/-- A store on a key some row already has preserves the key list. -/
theorem keys_putByKey_of_mem (now : Nat) (k : CacheKey)
    (dev ty : String) (ctxh : Context) (v : String) (s : CacheState)
    (E : GeminiCache) (hf : s.find? (keyMatch k) = some E) :
    keys (putByKey now k dev ty ctxh v s).2 = keys s := by
  simp only [putByKey, hf]
  exact keys_updateFirst _ _ s (fun e => rfl)

/-- A store on a key no row has appends exactly one fresh row. -/
theorem putByKey_of_find?_none (now : Nat) (k : CacheKey)
    (dev ty : String) (ctxh : Context) (v : String) (s : CacheState)
    (hf : s.find? (keyMatch k) = none) :
    (putByKey now k dev ty ctxh v s).2 = s ++ [freshEntry now k dev ty ctxh v] := by
  simp only [putByKey, hf]

/-- Key uniqueness survives a lookup. -/
theorem keysNodup_getByKey (now : Nat) (k : CacheKey) (s : CacheState)
    (h : keysNodup s) : keysNodup (getByKey now k s).2 := by
  unfold keysNodup
  rw [keys_getByKey]
  exact h

/-- Key uniqueness survives a store. -/
theorem keysNodup_putByKey (now : Nat) (k : CacheKey)
    (dev ty : String) (ctxh : Context) (v : String) (s : CacheState)
    (h : keysNodup s) : keysNodup (putByKey now k dev ty ctxh v s).2 := by
  cases hf : s.find? (keyMatch k) with
  | some E =>
    unfold keysNodup
    rw [keys_putByKey_of_mem now k dev ty ctxh v s E hf]
    exact h
  | none =>
    rw [putByKey_of_find?_none now k dev ty ctxh v s hf]
    unfold keysNodup keys at h ⊢
    rw [List.map_append, List.nodup_append]
    refine ⟨h, by simp, ?_⟩
    intro a ha hb
    rcases List.mem_map.mp ha with ⟨e, he, hek⟩
    have hak : a = k := by simpa [freshEntry] using hb
    have : ¬ keyMatch k e = true := List.find?_eq_none.mp hf e he
    exact this (by simp [keyMatch, hek, hak])

/-- Key uniqueness survives a cleanup sweep. -/
theorem keysNodup_cleanup (now : Nat) (s : CacheState) (h : keysNodup s) :
    keysNodup (cleanup_expired now s).2 :=
  List.Nodup.sublist (List.Sublist.map _ (List.filter_sublist s)) h

/-- Under key uniqueness, the hit query returns the row the key query returns
exactly when that row is unexpired, and nothing otherwise. -/
theorem find?_hitMatch_of_find?_keyMatch (now : Nat) (k : CacheKey)
    (s : CacheState) (E : GeminiCache) (h : keysNodup s)
    (hE : s.find? (keyMatch k) = some E) :
    s.find? (hitMatch now k) = if now < E.expires_at then some E else none := by
  induction s with
  | nil => exact absurd hE (by simp)
  | cons a rest ih =>
    have h' : a.cache_key ∉ List.map (fun e => e.cache_key) rest ∧ keysNodup rest := by
      simpa [keysNodup, keys, List.nodup_cons] using h
    cases hka : keyMatch k a with
    | true =>
      rw [List.find?_cons_of_pos rest hka] at hE
      have haE : a = E := by injection hE
      subst haE
      have hak : a.cache_key = k := by simpa [keyMatch] using hka
      by_cases hlive : now < a.expires_at
      · rw [if_pos hlive, List.find?_cons_of_pos rest (by simp [hitMatch, hak, hlive])]
      · rw [if_neg hlive, List.find?_cons_of_neg rest (by simp [hitMatch, hak, hlive])]
        apply find?_hitMatch_eq_none
        intro e he hek
        exact h'.1 (List.mem_map.mpr ⟨e, he, by rw [hek, hak]⟩)
    | false =>
      rw [List.find?_cons_of_neg rest (by simp [hka])] at hE
      have hak : ¬ a.cache_key = k := by simpa [keyMatch] using hka
      rw [List.find?_cons_of_neg rest (by simp [hitMatch, hak])]
      exact ih h'.2 hE

/-- After a store, the key query finds a row holding the stored payload and the
fresh expiry. -/
theorem putByKey_find?_keyMatch (now : Nat) (k : CacheKey)
    (dev ty : String) (ctxh : Context) (v : String) (s : CacheState) :
    ∃ E, ((putByKey now k dev ty ctxh v s).2).find? (keyMatch k) = some E ∧
      E.cache_key = k ∧ E.response_data = v ∧ E.expires_at = now + cache_ttl ∧
      E.last_accessed = now := by
  cases hf : s.find? (keyMatch k) with
  | some e =>
    refine ⟨overwriteRow now v e, ?_, ?_, rfl, rfl, rfl⟩
    · simp only [putByKey, hf]
      rw [find?_updateFirst _ _ s
        (fun c hc => by simpa [keyMatch, overwriteRow] using hc), hf]
      rfl
    · have := List.find?_some hf
      simpa [keyMatch, overwriteRow] using this
  | none =>
    refine ⟨freshEntry now k dev ty ctxh v, ?_, rfl, rfl, rfl, rfl⟩
    rw [putByKey_of_find?_none now k dev ty ctxh v s hf, List.find?_append, hf]
    simp [keyMatch, freshEntry]

/-- Claim C2: for the same deviation id and suggestion type, two context maps
holding identical key/value pairs in different insertion orders produce the
same cache key — the serialization sorts keys before hashing, so field order
never affects the key. -/
theorem cache_key_order_independent (dev ty : String) (c1 c2 : Context)
    (hperm : c1.Perm c2) (hkeys : c1.Pairwise (fun a b => a.1 ≠ b.1)) :
    generate_cache_key dev c1 ty = generate_cache_key dev c2 ty := by
  unfold generate_cache_key
  suffices h : sortPairs c1 = sortPairs c2 by rw [h]
  haveI : IsTotal (String × String) (fun a b => a.1 ≤ b.1) :=
    ⟨fun a b => le_total a.1 b.1⟩
  haveI : IsTrans (String × String) (fun a b => a.1 ≤ b.1) :=
    ⟨fun a b c h1 h2 => le_trans h1 h2⟩
  haveI : IsAntisymm (String × String) (fun a b => a.1 < b.1) :=
    ⟨fun a b h1 h2 => absurd (lt_trans h1 h2) (lt_irrefl _)⟩
  have i1 : (sortPairs c1).Perm c1 := List.perm_insertionSort _ c1
  have i2 : (sortPairs c2).Perm c2 := List.perm_insertionSort _ c2
  have hsymm : ∀ {x y : String × String}, x.1 ≠ y.1 → y.1 ≠ x.1 :=
    fun h h' => h h'.symm
  have hne1 : (sortPairs c1).Pairwise (fun a b => a.1 ≠ b.1) :=
    (i1.pairwise_iff hsymm).mpr hkeys
  have hne2 : (sortPairs c2).Pairwise (fun a b => a.1 ≠ b.1) :=
    (i2.pairwise_iff hsymm).mpr ((hperm.pairwise_iff hsymm).mp hkeys)
  have hs1 := List.sorted_insertionSort (fun a b : String × String => a.1 ≤ b.1) c1
  have hs2 := List.sorted_insertionSort (fun a b : String × String => a.1 ≤ b.1) c2
  have hstrict1 : List.Sorted (fun a b : String × String => a.1 < b.1) (sortPairs c1) :=
    (hs1.and hne1).imp (fun h => lt_of_le_of_ne h.1 h.2)
  have hstrict2 : List.Sorted (fun a b : String × String => a.1 < b.1) (sortPairs c2) :=
    (hs2.and hne2).imp (fun h => lt_of_le_of_ne h.1 h.2)
  exact List.eq_of_perm_of_sorted (i1.trans (hperm.trans i2.symm)) hstrict1 hstrict2

/-- Witness for C2 at a concrete pair of reordered context maps. -/
theorem cache_key_order_independent_witness :
    ([("b", "2"), ("a", "1")] : Context).Perm [("a", "1"), ("b", "2")] ∧
    generate_cache_key "d1" [("b", "2"), ("a", "1")] "causes" =
      generate_cache_key "d1" [("a", "1"), ("b", "2")] "causes" :=
  ⟨by decide,
   cache_key_order_independent "d1" "causes" [("b", "2"), ("a", "1")]
     [("a", "1"), ("b", "2")] (by decide) (by decide)⟩

/-- Claim C4: the sweep returns the number of rows deleted, deletes every row
past expiry, keeps every row not past expiry, and keeps nothing else. -/
theorem sweep_deletes_all_and_only_expired (now : Nat) (s : CacheState) :
    (cleanup_expired now s).1 + (cleanup_expired now s).2.length = s.length ∧
    (∀ e ∈ s, e.expires_at < now → e ∉ (cleanup_expired now s).2) ∧
    (∀ e ∈ s, ¬ e.expires_at < now → e ∈ (cleanup_expired now s).2) ∧
    (∀ e ∈ (cleanup_expired now s).2, e ∈ s ∧ ¬ e.expires_at < now) := by
  simp only [cleanup_expired]
  refine ⟨length_filter_split _ s, ?_, ?_, ?_⟩
  · intro e he hlt hmem
    have := (List.mem_filter.mp hmem).2
    simp [hlt] at this
  · intro e he hnlt
    exact List.mem_filter.mpr ⟨he, by simp [hnlt]⟩
  · intro e he
    have h := List.mem_filter.mp he
    exact ⟨h.1, by simpa using h.2⟩

/-- Witness for C4: at time 5 the expired sample row is deleted and the live
one is kept. -/
theorem sweep_deletes_all_and_only_expired_witness :
    sampleExpired ∉ (cleanup_expired 5 [sampleLive, sampleExpired]).2 ∧
    sampleLive ∈ (cleanup_expired 5 [sampleLive, sampleExpired]).2 :=
  ⟨(sweep_deletes_all_and_only_expired 5 [sampleLive, sampleExpired]).2.1
      sampleExpired (by decide) (by decide),
   (sweep_deletes_all_and_only_expired 5 [sampleLive, sampleExpired]).2.2.1
      sampleLive (by decide) (by decide)⟩

/-- Claim C10: at the exact expiry instant a row is in neither operation's
scope — the lookup misses it (its filter needs `expires_at > now`, strictly)
and the sweep keeps it (its filter needs `expires_at < now`, strictly). -/
theorem expiry_instant_excluded (now : Nat) (k : CacheKey) (s : CacheState)
    (e : GeminiCache) (h : keysNodup s) (he : e ∈ s) (hk : e.cache_key = k)
    (hexp : e.expires_at = now) :
    (getByKey now k s).1 = none ∧ e ∈ (cleanup_expired now s).2 := by
  constructor
  · have hf : s.find? (keyMatch k) = some e := find?_keyMatch_of_mem k s e h he hk
    have hh := find?_hitMatch_of_find?_keyMatch now k s e h hf
    rw [if_neg (by omega)] at hh
    simp [getByKey, hh]
  · exact List.mem_filter.mpr ⟨he, by simp [hexp]⟩

/-- Witness for C10: the sample row expiring exactly at time 10. -/
theorem expiry_instant_excluded_witness :
    (getByKey 10 sampleKey [sampleLive]).1 = none ∧
    sampleLive ∈ (cleanup_expired 10 [sampleLive]).2 :=
  expiry_instant_excluded 10 sampleKey [sampleLive] sampleLive (by decide)
    (by decide) (by decide) (by decide)

/-- Claim C8: any storage or serialization failure raised inside a cache
operation is swallowed at the cache boundary: the lookup returns nothing (a
miss), the store returns `false`, and the sweep returns `0` for any failure
that can be raised inside it (the sweep performs no serialization). -/
theorem failures_swallowed (f : FailureMode) (now : Nat) (dev : String)
    (ctx : Context) (ty : String) (v : String) (s : CacheState)
    (h : f.queryFails = true ∨ f.commitFails = true ∨ f.serdeFails = true) :
    get_cached_response_failing f now dev ctx ty s = none ∧
    cache_response_failing f now dev ctx ty v s = false ∧
    (f.queryFails = true ∨ f.commitFails = true →
      cleanup_expired_failing f now s = 0) := by
  refine ⟨?_, ?_, ?_⟩
  · unfold get_cached_response_failing
    cases hq : f.queryFails with
    | true => simp [cache_enabled, hq]
    | false =>
      have hcs : f.commitFails = true ∨ f.serdeFails = true := by
        rcases h with h | h | h
        · rw [hq] at h; exact absurd h (by simp)
        · exact Or.inl h
        · exact Or.inr h
      cases hfind : s.find? (hitMatch now (generate_cache_key dev ctx ty)) with
      | none => simp [cache_enabled, hq, hfind]
      | some e =>
        rcases hcs with h' | h'
        · simp [cache_enabled, hq, hfind, h']
        · cases hc : f.commitFails <;> simp [cache_enabled, hq, hfind, hc, h']
  · unfold cache_response_failing
    rcases h with h | h | h <;> cases hq : f.queryFails <;>
      cases hsd : f.serdeFails <;> cases hc : f.commitFails <;>
      simp_all [cache_enabled]
  · intro h'
    unfold cleanup_expired_failing
    rcases h' with h' | h'
    · simp [h']
    · cases hq : f.queryFails <;> simp [hq, h']

/-- Witness for C8: a failing commit at a concrete input. -/
theorem failures_swallowed_witness :
    get_cached_response_failing ⟨false, true, false⟩ 5 "d1" [("p", "x")] "causes"
        [sampleLive] = none ∧
    cache_response_failing ⟨false, true, false⟩ 5 "d1" [("p", "x")] "causes" "v"
        [sampleLive] = false ∧
    ((⟨false, true, false⟩ : FailureMode).queryFails = true ∨
        (⟨false, true, false⟩ : FailureMode).commitFails = true →
      cleanup_expired_failing ⟨false, true, false⟩ 5 [sampleLive] = 0) :=
  failures_swallowed ⟨false, true, false⟩ 5 "d1" [("p", "x")] "causes" "v"
    [sampleLive] (Or.inr (Or.inl rfl))

/-- Claim C1: a fingerprint for which no row is stored misses; after a store of
payload `v` at time `t0`, a lookup at any `t` with `t0 ≤ t` before the TTL has
elapsed returns exactly `v`, and a lookup at any `t` from the moment the TTL
has elapsed returns nothing. -/
theorem get_put_ttl (t0 t : Nat) (dev : String) (ctx : Context) (ty : String)
    (v : String) (s : CacheState) (h : keysNodup s) :
    ((∀ e ∈ s, e.cache_key ≠ generate_cache_key dev ctx ty) →
        (get_cached_response t dev ctx ty s).1 = none) ∧
    (t0 ≤ t → t < t0 + cache_ttl →
        (get_cached_response t dev ctx ty
            ((cache_response t0 dev ctx ty v s).2)).1 = some v) ∧
    (t0 + cache_ttl ≤ t →
        (get_cached_response t dev ctx ty
            ((cache_response t0 dev ctx ty v s).2)).1 = none) := by
  have hwrap : ∀ (u : Nat) (s' : CacheState),
      (get_cached_response u dev ctx ty s').1 =
        (getByKey u (generate_cache_key dev ctx ty) s').1 := by
    intro u s'
    simp [get_cached_response, cache_enabled]
  have hput : (cache_response t0 dev ctx ty v s).2 =
      (putByKey t0 (generate_cache_key dev ctx ty) dev ty (hash_context ctx) v s).2 := by
    simp [cache_response, cache_enabled]
  obtain ⟨E, hE, hEk, hEv, hEexp, hElast⟩ :=
    putByKey_find?_keyMatch t0 (generate_cache_key dev ctx ty) dev ty
      (hash_context ctx) v s
  have hnodup' := keysNodup_putByKey t0 (generate_cache_key dev ctx ty) dev ty
    (hash_context ctx) v s h
  refine ⟨?_, ?_, ?_⟩
  · intro hnever
    rw [hwrap]
    have hnone := find?_hitMatch_eq_none t (generate_cache_key dev ctx ty) s hnever
    simp [getByKey, hnone]
  · intro h1 h2
    rw [hwrap, hput]
    have hh := find?_hitMatch_of_find?_keyMatch t (generate_cache_key dev ctx ty)
      _ E hnodup' hE
    rw [if_pos (by omega)] at hh
    simp [getByKey, hh, hEv]
  · intro h1
    rw [hwrap, hput]
    have hh := find?_hitMatch_of_find?_keyMatch t (generate_cache_key dev ctx ty)
      _ E hnodup' hE
    rw [if_neg (by omega)] at hh
    simp [getByKey, hh]

/-- Witness for C1: store at time 0, hit with the stored payload at time 3,
miss at the exact moment the TTL has elapsed. -/
theorem get_put_ttl_witness :
    (get_cached_response 3 "d1" [("p", "x")] "causes"
        ((cache_response 0 "d1" [("p", "x")] "causes" "v" []).2)).1 = some "v" ∧
    (get_cached_response cache_ttl "d1" [("p", "x")] "causes"
        ((cache_response 0 "d1" [("p", "x")] "causes" "v" []).2)).1 = none :=
  ⟨(get_put_ttl 0 3 "d1" [("p", "x")] "causes" "v" [] (by decide)).2.1
      (by decide) (by decide),
   (get_put_ttl 0 cache_ttl "d1" [("p", "x")] "causes" "v" [] (by decide)).2.2
      (by decide)⟩

/-- Claim C9: a lookup that hits a live row returns its payload and rewrites it
with `update_access_stats`: `access_count` grows by exactly one, `last_accessed`
becomes the lookup time, and key and expiry are untouched — so repeated lookups
on a live row keep hitting it and make `access_count` strictly increase. -/
theorem hit_increments_access_count (now : Nat) (k : CacheKey) (s : CacheState)
    (e : GeminiCache) (h : keysNodup s) (he : e ∈ s) (hk : e.cache_key = k)
    (hlive : now < e.expires_at) :
    (getByKey now k s).1 = some e.response_data ∧
    touchRow now e ∈ (getByKey now k s).2 ∧
    (touchRow now e).access_count = e.access_count + 1 ∧
    (touchRow now e).last_accessed = now ∧
    (touchRow now e).expires_at = e.expires_at ∧
    (touchRow now e).cache_key = e.cache_key := by
  have hfk : s.find? (keyMatch k) = some e := find?_keyMatch_of_mem k s e h he hk
  have hfh : s.find? (hitMatch now k) = some e := by
    rw [find?_hitMatch_of_find?_keyMatch now k s e h hfk, if_pos hlive]
  refine ⟨by simp [getByKey, hfh], ?_, rfl, rfl, rfl, rfl⟩
  simp only [getByKey, hfh]
  exact updateFirst_mem_of_find? _ _ s e hfh

/-- Witness for C9 on the sample live row at time 5. -/
theorem hit_increments_access_count_witness :
    (getByKey 5 sampleKey [sampleLive]).1 = some sampleLive.response_data ∧
    touchRow 5 sampleLive ∈ (getByKey 5 sampleKey [sampleLive]).2 ∧
    (touchRow 5 sampleLive).access_count = sampleLive.access_count + 1 ∧
    (touchRow 5 sampleLive).last_accessed = 5 ∧
    (touchRow 5 sampleLive).expires_at = sampleLive.expires_at ∧
    (touchRow 5 sampleLive).cache_key = sampleLive.cache_key :=
  hit_increments_access_count 5 sampleKey [sampleLive] sampleLive (by decide)
    (by decide) (by decide) (by decide)

/-- Claim C3 is false as stated: a second identical store at the same instant
is not a no-op, because the overwrite branch of `cache_response` also executes
`access_count += 1`.  After one store the row has `access_count = 1`; after two
identical stores it has `access_count = 2`, so the states differ. -/
theorem put_not_idempotent_counterexample :
    (cache_response 0 "d1" [] "causes" "v"
        ((cache_response 0 "d1" [] "causes" "v" []).2)).2 ≠
      (cache_response 0 "d1" [] "causes" "v" []).2 := by decide

/-- When a row with the key exists, a store overwrites exactly that row, and
the key query of the new state returns its overwritten form. -/
theorem putByKey_find?_of_exists (now : Nat) (k : CacheKey) (dev ty : String)
    (ctxh : Context) (v : String) (s : CacheState) (E : GeminiCache)
    (hE : s.find? (keyMatch k) = some E) :
    ((putByKey now k dev ty ctxh v s).2).find? (keyMatch k) =
      some (overwriteRow now v E) := by
  simp only [putByKey, hE]
  rw [find?_updateFirst _ _ _
    (fun c hc => by simpa [keyMatch, overwriteRow] using hc), hE]
  rfl

/-- Claim C3 amended: storing the same fingerprint and payload twice at the
same instant leaves the row's payload, expiry, creation time and last-access
time exactly as after a single store, but increments the `access_count`
tracking field by one. -/
theorem put_almost_idempotent (now : Nat) (dev : String) (ctx : Context)
    (ty : String) (v : String) (s : CacheState) :
    ∃ e1 e2,
      ((cache_response now dev ctx ty v s).2).find?
          (keyMatch (generate_cache_key dev ctx ty)) = some e1 ∧
      ((cache_response now dev ctx ty v
          ((cache_response now dev ctx ty v s).2)).2).find?
          (keyMatch (generate_cache_key dev ctx ty)) = some e2 ∧
      e2.response_data = e1.response_data ∧
      e2.expires_at = e1.expires_at ∧
      e2.created_at = e1.created_at ∧
      e2.last_accessed = e1.last_accessed ∧
      e2.access_count = e1.access_count + 1 := by
  have hwrap : ∀ s' : CacheState, (cache_response now dev ctx ty v s').2 =
      (putByKey now (generate_cache_key dev ctx ty) dev ty (hash_context ctx) v s').2 := by
    intro s'
    simp [cache_response, cache_enabled]
  obtain ⟨E, hE, hEk, hEv, hEexp, hElast⟩ :=
    putByKey_find?_keyMatch now (generate_cache_key dev ctx ty) dev ty
      (hash_context ctx) v s
  refine ⟨E, overwriteRow now v E, ?_, ?_, ?_, ?_, rfl, ?_, rfl⟩
  · rw [hwrap]
    exact hE
  · rw [hwrap, hwrap]
    exact putByKey_find?_of_exists now (generate_cache_key dev ctx ty) dev ty
      (hash_context ctx) v _ E hE
  · exact hEv.symm
  · exact hEexp.symm
  · exact hElast.symm

/-- Claim C5 is false as stated: the overwrite branch refreshes `expires_at`
but never reassigns `created_at`, so re-storing an existing key at a later
instant leaves a row with `expires_at ≠ created_at + cache_ttl`. -/
theorem ttl_relation_counterexample :
    ¬ ttlInvariant
        ((cache_response 1 "d1" [] "causes" "w"
            ((cache_response 0 "d1" [] "causes" "v" []).2)).2) := by decide

/-- Claim C5 amended: `expires_at = created_at + cache_ttl` holds for freshly
created rows and is preserved by lookups and sweeps, but an overwrite at time
`now` sets `expires_at = now + cache_ttl` while keeping the original
`created_at`, so the relation survives an overwrite only when the overwrite
happens at the creation instant. -/
theorem ttl_relation_amended (now : Nat) (k : CacheKey) (dev ty : String)
    (ctxh : Context) (v : String) (s : CacheState) :
    (ttlInvariant s → (∀ x ∈ s, x.cache_key ≠ k) →
        ttlInvariant (putByKey now k dev ty ctxh v s).2) ∧
    (ttlInvariant s → ttlInvariant (getByKey now k s).2) ∧
    (ttlInvariant s → ttlInvariant (cleanup_expired now s).2) ∧
    (∀ E, s.find? (keyMatch k) = some E →
        ∃ e', (putByKey now k dev ty ctxh v s).2.find? (keyMatch k) = some e' ∧
          e'.created_at = E.created_at ∧ e'.expires_at = now + cache_ttl) := by
  refine ⟨?_, ?_, ?_, ?_⟩
  · intro hinv hnever
    rw [putByKey_of_find?_none now k dev ty ctxh v s
      (find?_keyMatch_eq_none k s hnever)]
    intro e he
    rcases List.mem_append.mp he with he' | he'
    · exact hinv e he'
    · have : e = freshEntry now k dev ty ctxh v := by simpa using he'
      rw [this]
      rfl
  · intro hinv
    cases hfind : s.find? (hitMatch now k) with
    | none => simpa [getByKey, hfind] using hinv
    | some e =>
      simp only [getByKey, hfind]
      intro x hx
      rcases mem_updateFirst _ _ s x hx with hx' | ⟨y, hy, hxy⟩
      · exact hinv x hx'
      · rw [hxy]
        exact hinv y hy
  · intro hinv e he
    exact hinv e (List.mem_of_mem_filter he)
  · intro E hE
    exact ⟨overwriteRow now v E,
      putByKey_find?_of_exists now k dev ty ctxh v s E hE, rfl, rfl⟩

/-- Witness for the amended C5: a lookup at time 5 keeps the TTL relation on a
freshly created row. -/
theorem ttl_relation_amended_witness :
    (touchRow 5 sampleFresh).expires_at =
      (touchRow 5 sampleFresh).created_at + cache_ttl :=
  (ttl_relation_amended 5 sampleKey "d1" "causes" [("p", "x")] "v"
      [sampleFresh]).2.1 (by decide) (touchRow 5 sampleFresh) (by decide)

/-- Key uniqueness survives the wrapped lookup. -/
theorem keysNodup_get_cached_response (now : Nat) (dev : String) (ctx : Context)
    (ty : String) (s : CacheState) (h : keysNodup s) :
    keysNodup (get_cached_response now dev ctx ty s).2 := by
  have hred : get_cached_response now dev ctx ty s =
      getByKey now (generate_cache_key dev ctx ty) s := by
    simp [get_cached_response, cache_enabled]
  rw [hred]
  exact keysNodup_getByKey now _ s h

/-- Key uniqueness survives the wrapped store. -/
theorem keysNodup_cache_response (now : Nat) (dev : String) (ctx : Context)
    (ty : String) (v : String) (s : CacheState) (h : keysNodup s) :
    keysNodup (cache_response now dev ctx ty v s).2 := by
  have hred : (cache_response now dev ctx ty v s).2 =
      (putByKey now (generate_cache_key dev ctx ty) dev ty (hash_context ctx) v s).2 := by
    simp [cache_response, cache_enabled]
  rw [hred]
  exact keysNodup_putByKey now _ dev ty _ v s h

/-- Key uniqueness is preserved along any history. -/
theorem keysNodup_runTrace (ops : List Op) :
    ∀ s g, keysNodup s → keysNodup (runTrace ops (s, g)).1 := by
  induction ops with
  | nil => intro s g h; exact h
  | cons op rest ih =>
    intro s g h
    simp only [runTrace, List.foldl_cons]
    cases op with
    | get now dev ctx ty =>
      exact ih _ _ (keysNodup_get_cached_response now dev ctx ty s h)
    | put now dev ctx ty v =>
      exact ih _ _ (keysNodup_cache_response now dev ctx ty v s h)
    | sweep now =>
      exact ih _ _ (keysNodup_cleanup now s h)

/-- Claim C7: the key column stays unique under every sequence of get/put/sweep
operations, and a store on a key that already has a row rewrites that row in
place: the key list and the row count are unchanged, no second row appears. -/
theorem key_uniqueness_invariant (ops : List Op) (s : CacheState) (g : Nat)
    (now : Nat) (k : CacheKey) (dev ty : String) (ctxh : Context) (v : String)
    (h : keysNodup s) :
    keysNodup (runTrace ops (s, g)).1 ∧
    ((∃ x ∈ s, x.cache_key = k) →
      keys (putByKey now k dev ty ctxh v s).2 = keys s ∧
      (putByKey now k dev ty ctxh v s).2.length = s.length) := by
  constructor
  · exact keysNodup_runTrace ops s g h
  · rintro ⟨x, hx, hxk⟩
    have hsome : (s.find? (keyMatch k)).isSome = true :=
      List.find?_isSome.mpr ⟨x, hx, by simp [keyMatch, hxk]⟩
    rcases Option.isSome_iff_exists.mp hsome with ⟨E, hE⟩
    refine ⟨keys_putByKey_of_mem now k dev ty ctxh v s E hE, ?_⟩
    simp only [putByKey, hE]
    exact length_updateFirst _ _ s

/-- Witness for C7 on a concrete three-operation history and a concrete
in-place overwrite. -/
theorem key_uniqueness_invariant_witness :
    keysNodup (runTrace [Op.put 0 "d3" [] "causes" "u",
        Op.get 1 "d3" [] "causes", Op.sweep 2] ([sampleLive], 0)).1 ∧
    keys (putByKey 5 sampleKey "d1" "causes" [("p", "x")] "w" [sampleLive]).2 =
      keys [sampleLive] ∧
    (putByKey 5 sampleKey "d1" "causes" [("p", "x")] "w" [sampleLive]).2.length =
      ([sampleLive] : CacheState).length :=
  ⟨(key_uniqueness_invariant [Op.put 0 "d3" [] "causes" "u",
        Op.get 1 "d3" [] "causes", Op.sweep 2] [sampleLive] 0 5 sampleKey
        "d1" "causes" [("p", "x")] "w" (by decide)).1,
   (key_uniqueness_invariant [] [sampleLive] 0 5 sampleKey "d1" "causes"
        [("p", "x")] "w" (by decide)).2 ⟨sampleLive, by decide, by decide⟩⟩

/-- Stats bookkeeping of one lookup: on a hit the access-count total and the
hit counter grow together; on a miss nothing changes; keys never change. -/
theorem stats_get_step (now : Nat) (dev : String) (ctx : Context) (ty : String)
    (s : CacheState) :
    total_hits (get_cached_response now dev ctx ty s).2 =
      total_hits s +
        (if (get_cached_response now dev ctx ty s).1.isSome then 1 else 0) ∧
    total_entries (get_cached_response now dev ctx ty s).2 = total_entries s ∧
    keys (get_cached_response now dev ctx ty s).2 = keys s := by
  have hred : get_cached_response now dev ctx ty s =
      getByKey now (generate_cache_key dev ctx ty) s := by
    simp [get_cached_response, cache_enabled]
  rw [hred]
  cases hfind : s.find? (hitMatch now (generate_cache_key dev ctx ty)) with
  | none => simp [getByKey, hfind]
  | some e =>
    simp only [getByKey, hfind, Option.isSome_some, if_true]
    refine ⟨total_hits_updateFirst _ _ s e hfind (fun c => rfl), ?_, ?_⟩
    · exact length_updateFirst _ _ s
    · exact keys_updateFirst _ _ s (fun e => rfl)

/-- Stats bookkeeping of one store on a previously unstored key: one fresh row
with `access_count = 1`, so both totals grow by one and its key is appended. -/
theorem stats_put_step (now : Nat) (dev : String) (ctx : Context) (ty : String)
    (v : String) (s : CacheState)
    (hfresh : ∀ e ∈ s, e.cache_key ≠ generate_cache_key dev ctx ty) :
    total_hits (cache_response now dev ctx ty v s).2 = total_hits s + 1 ∧
    total_entries (cache_response now dev ctx ty v s).2 = total_entries s + 1 ∧
    keys (cache_response now dev ctx ty v s).2 =
      keys s ++ [generate_cache_key dev ctx ty] := by
  have hred : (cache_response now dev ctx ty v s).2 =
      (putByKey now (generate_cache_key dev ctx ty) dev ty (hash_context ctx) v s).2 := by
    simp [cache_response, cache_enabled]
  rw [hred, putByKey_of_find?_none _ _ _ _ _ _ _
    (find?_keyMatch_eq_none _ s hfresh)]
  refine ⟨?_, ?_, ?_⟩
  · simp [total_hits, freshEntry]
  · simp [total_entries]
  · simp [keys, freshEntry]

/-- Along a history with no sweep whose stores all target distinct keys, the
access-count total stays exactly `row count + hits`. -/
theorem trace_hits_invariant (ops : List Op) :
    ∀ s g, total_hits s = total_entries s + g →
      (∀ op ∈ ops, op.isSweep = false) →
      (putKeys ops).Nodup →
      (∀ k ∈ keys s, k ∉ putKeys ops) →
      total_hits (runTrace ops (s, g)).1 =
        total_entries (runTrace ops (s, g)).1 + (runTrace ops (s, g)).2 := by
  induction ops with
  | nil =>
    intro s g h _ _ _
    exact h
  | cons op rest ih =>
    intro s g h hns hnd hdisj
    simp only [runTrace, List.foldl_cons]
    cases op with
    | sweep now =>
      exact absurd (hns _ (List.mem_cons_self _ _)) (by simp [Op.isSweep])
    | get now dev ctx ty =>
      obtain ⟨h1, h2, h3⟩ := stats_get_step now dev ctx ty s
      have hstep : runStep (s, g) (Op.get now dev ctx ty) =
          ((get_cached_response now dev ctx ty s).2,
           g + (if (get_cached_response now dev ctx ty s).1.isSome then 1 else 0)) := rfl
      rw [hstep]
      refine ih _ _ ?_ ?_ ?_ ?_
      · rw [h1, h2, h]
        omega
      · exact fun op hop => hns op (List.mem_cons_of_mem _ hop)
      · simpa [putKeys] using hnd
      · intro k' hk'
        rw [h3] at hk'
        have := hdisj k' hk'
        simpa [putKeys] using this
    | put now dev ctx ty v =>
      have hkp : generate_cache_key dev ctx ty ∈ putKeys (Op.put now dev ctx ty v :: rest) := by
        simp [putKeys]
      have hfresh : ∀ e ∈ s, e.cache_key ≠ generate_cache_key dev ctx ty := by
        intro e he hek
        exact hdisj e.cache_key (List.mem_map.mpr ⟨e, he, rfl⟩) (hek ▸ hkp)
      obtain ⟨h1, h2, h3⟩ := stats_put_step now dev ctx ty v s hfresh
      have hnd' : (generate_cache_key dev ctx ty :: putKeys rest).Nodup := by
        simpa [putKeys] using hnd
      have hstep : runStep (s, g) (Op.put now dev ctx ty v) =
          ((cache_response now dev ctx ty v s).2, g) := rfl
      rw [hstep]
      refine ih _ _ ?_ ?_ ?_ ?_
      · rw [h1, h2, h]
        omega
      · exact fun op hop => hns op (List.mem_cons_of_mem _ hop)
      · exact (List.nodup_cons.mp hnd').2
      · intro k' hk'
        rw [h3] at hk'
        rcases List.mem_append.mp hk' with hk' | hk'
        · intro hmem
          exact hdisj k' hk' (by simpa [putKeys] using List.mem_cons_of_mem _ hmem)
        · have : k' = generate_cache_key dev ctx ty := by simpa using hk'
          rw [this]
          exact (List.nodup_cons.mp hnd').1

/-- Claim C6 is false as stated: its hits are gets that returned a payload, but
the endpoint derives `cache_hits = max(total_hits − total_entries, 0)` from the
access-count total, and the overwrite branch of a store also increments
`access_count`.  Along a history of 26 identical stores and no gets there are
zero cache hits, yet the endpoint computes `cache_hits = 25` and reports
savings of `0.01` dollars instead of `0`. -/
theorem estimated_savings_counterexample :
    estimated_cost_savings_usd
        (runTrace (List.replicate 26 (Op.put 0 "d1" [] "causes" "v")) ([], 0)).1 ≠
      ((runTrace (List.replicate 26 (Op.put 0 "d1" [] "causes" "v")) ([], 0)).2 : ℚ)
        * estimated_cost_per_call := by
  have h1 : cache_hits_figure
      (runTrace (List.replicate 26 (Op.put 0 "d1" [] "causes" "v")) ([], 0)).1 = 25 := by
    decide
  have h2 : (runTrace (List.replicate 26 (Op.put 0 "d1" [] "causes" "v")) ([], 0)).2 = 0 := by
    decide
  unfold estimated_cost_savings_usd
  rw [h1, h2]
  simp only [roundTo2, estimated_cost_per_call]
  norm_num
  rw [Rat.floor_def']
  norm_num

/-- Claim C6 amended: the endpoint's figure is
`round((total_hits − total_entries) × cost, 2)` (clamped at zero), where
`total_hits` is the access-count total; this equals hits × cost (rounded the
same way) exactly on histories with no sweep in which no key is stored twice —
there each row contributes `1 + its hits` to the total, so the difference is
the number of gets that returned a cached payload.  In general overwriting
stores inflate the figure and sweeps drop the deleted rows' hits from it. -/
theorem estimated_savings_amended (ops : List Op)
    (hns : ∀ op ∈ ops, op.isSweep = false) (hnd : (putKeys ops).Nodup) :
    estimated_cost_savings_usd (runTrace ops ([], 0)).1 =
      roundTo2 (((runTrace ops ([], 0)).2 : ℚ) * estimated_cost_per_call) := by
  have h := trace_hits_invariant ops [] 0 rfl hns hnd
    (fun k hk => absurd hk (by simp [keys]))
  unfold estimated_cost_savings_usd cache_hits_figure
  rw [h]
  rcases Nat.eq_zero_or_pos (runTrace ops ([], 0)).2 with hg | hg
  · rw [hg]
    simp
  · rw [if_pos (by omega), Nat.add_sub_cancel_left]

/-- Witness for the amended C6 on a history with one store and one hit. -/
theorem estimated_savings_amended_witness :
    estimated_cost_savings_usd
        (runTrace [Op.put 0 "d1" [] "causes" "v", Op.get 1 "d1" [] "causes"]
          ([], 0)).1 =
      roundTo2
        (((runTrace [Op.put 0 "d1" [] "causes" "v", Op.get 1 "d1" [] "causes"]
            ([], 0)).2 : ℚ) * estimated_cost_per_call) :=
  estimated_savings_amended
    [Op.put 0 "d1" [] "causes" "v", Op.get 1 "d1" [] "causes"]
    (by decide) (by decide)
